import Mathlib

/-!
Verification of the docstring-to-text processing pipeline
(`docstring_to_text` Python package) against its specification.

The Python sources are shallowly embedded:
* strings are modelled as `List Char` (one entry per character);
* Python `int` is modelled as `Int` (`Nat` for values the source clamps
  to be positive, such as run lengths and the cleaned `tab_size`);
* the two floating-point expressions of the source
  (`int(float(x) / tab_size + 0.50001)` in `__format_line` and
  `int(tabs_f + 0.4999)` in `__common_block_spaces_to_tabs__round_full_tabs`)
  are modelled exactly as the rationals they denote, via integer floor
  division (`0.50001 = 50001/100000`, `0.4999 = 4999/10000`);
* fallible code (Python `raise` / failing `assert`) returns `Option`/`Except`.
-/

/-- Python whitespace test, restricted to the ASCII whitespace characters
(`' '`, `'\t'`, `'\n'`, `'\r'`, `'\x0b'`, `'\x0c'`).  The source uses the
regex class `\s` and `str.split()`; all inputs of interest are ASCII. -/
def isPySpace (c : Char) : Bool :=
  c = ' ' || c = '\t' || c = '\n' || c = '\r' || c = Char.ofNat 11 || c = Char.ofNat 12

/-- `IN_BULLETS` module-level constant of `__defaults.py`. -/
def IN_BULLETS : List Char := "-*∙•⬤⦾⦿◉◦○➲‣►▪■◼➣➢➤★".data

/-- `OUT_BULLETS` module-level constant of `__defaults.py`. -/
def OUT_BULLETS : List Char := "•○■►★".data

/-- `TAB_SIZE` module-level constant of `__defaults.py`. -/
def TAB_SIZE : Nat := 4

/-- `BlockType` enum of `__internal_parsed_line.py`. -/
inductive BlockType where
  | Indent
  | Bullet
  | Number
deriving DecidableEq, Repr

/-- `ParsedLine` mutable dataclass of `__internal_parsed_line.py`.
String segments are kept as `List Char`. -/
structure ParsedLine where
  indent : Int
  is_empty : Bool
  is_list : Bool
  list_level : Int
  bullet : List Char
  number : List Char
  text : List Char
deriving DecidableEq, Repr

/-- `ParsedLine.block_type`: classify the line. -/
def ParsedLine.block_type (l : ParsedLine) : BlockType :=
  if ¬ l.is_list then BlockType.Indent
  else if l.bullet ≠ [] then BlockType.Bullet
  else BlockType.Number

/-- `ParsedLine.block_id`: the key-tuple
`(indent, is_empty, is_list, bool(bullet), bool(number))`. -/
def ParsedLine.block_id (l : ParsedLine) : Int × Bool × Bool × Bool × Bool :=
  (l.indent, l.is_empty, l.is_list, l.bullet ≠ [], l.number ≠ [])

/-- `ParsedLine.offset_indent` with the default `clamp_negative=True`
(the only form the pipeline uses): add `offset` to each line's indent,
clamping at 0.  The source returns early when `offset == 0`, leaving even
negative indents untouched in that case. -/
def ParsedLine.offset_indent (lines : List ParsedLine) (offset : Int) : List ParsedLine :=
  if offset = 0 then lines
  else lines.map (fun l => { l with indent := max (l.indent + offset) 0 })

/-- `ParsedLine.unindent` with the default `offset=0, clamp_negative=True`:
remove the shared indent (minimum over non-empty lines) from the block,
returning the removed amount (clamped at 0) and the updated lines
(the source mutates in place). -/
def ParsedLine.unindent (lines : List ParsedLine) : Int × List ParsedLine :=
  let lines_with_text := lines.filter (fun x => ! x.is_empty)
  match (lines_with_text.map (fun x => x.indent)).min? with
  | none => (0, lines)
  | some common_indent =>
    (max common_indent 0, ParsedLine.offset_indent lines (0 - common_indent))

/-- Tab-character test used by the indent-parsing regex. -/
def isTabChar (c : Char) : Bool := c = '\t'

/-- One iteration of `_re_indent_parse_` = `(\t*)([^\t]*)(.*?)$`:
split off the leading tab run, then the following non-tab run. -/
def indentParseStep (cs : List Char) : List Char × List Char × List Char :=
  let tabs := cs.takeWhile isTabChar
  let rest1 := cs.dropWhile isTabChar
  (tabs, rest1.takeWhile (fun c => ! isTabChar c), rest1.dropWhile (fun c => ! isTabChar c))

theorem indentParseStep_shrink (c : Char) (cs : List Char) :
    (indentParseStep (c :: cs)).2.2.length < (c :: cs).length := by
  have key : (indentParseStep (c :: cs)).2.2.length ≤ cs.length := by
    unfold indentParseStep
    dsimp only
    rcases eq_or_ne c '\t' with h | h
    · have h1 : List.dropWhile isTabChar (c :: cs) = List.dropWhile isTabChar cs := by
        rw [List.dropWhile_cons]
        simp [isTabChar, h]
      rw [h1]
      exact le_trans (List.dropWhile_sublist _).length_le (List.dropWhile_sublist _).length_le
    · have h1 : List.dropWhile isTabChar (c :: cs) = c :: cs := by
        rw [List.dropWhile_cons]
        simp [isTabChar, h]
      have h2 : List.dropWhile (fun c => ! isTabChar c) (c :: cs)
          = List.dropWhile (fun c => ! isTabChar c) cs := by
        rw [List.dropWhile_cons]
        simp [isTabChar, h]
      rw [h1, h2]
      exact (List.dropWhile_sublist _).length_le
  simp only [List.length_cons]
  omega

/-- The loop of `DocstringToText.__detect_indent`, carrying the
`full_tabs` and `pending_spaces` accumulators.  Each iteration strips a
maximal tab run and the following maximal non-tab run; full-tab multiples
of the non-tab run are promoted to tabs and only its sub-tab remainder is
kept as pending (overwriting any previously pending spaces).
The `fuel` argument only makes the recursion structural; each iteration
consumes at least one character, so `fuel = length` never runs out. -/
def detectIndentLoop (tab_size : Nat) : Nat → List Char → Nat → Nat → Nat × Nat
  | _, [], full_tabs, pending_spaces => (full_tabs, pending_spaces)
  | 0, _ :: _, full_tabs, pending_spaces => (full_tabs, pending_spaces)
  | fuel + 1, c :: cs, full_tabs, _ =>
    let s := indentParseStep (c :: cs)
    let p := s.2.1.length
    detectIndentLoop tab_size fuel s.2.2 (full_tabs + s.1.length + p / tab_size) (p % tab_size)

/-- `DocstringToText.__detect_indent`: convert a pre-extracted
whitespace-only prefix to an indent measured in spaces. -/
def detect_indent (tab_size : Nat) (indent_str : List Char) : Nat :=
  if indent_str = [] then 0
  else
    let r := detectIndentLoop tab_size indent_str.length indent_str 0 0
    r.1 * tab_size + r.2

/-- Number of tab characters in an indent prefix (claim-side notion). -/
def tabCount (cs : List Char) : Nat := (cs.filter isTabChar).length

/-- The final (rightmost) run of non-tab characters of an indent prefix:
the maximal suffix containing no tab (claim-side notion — a run of spaces
not followed by any later tab). -/
def finalSpaceRun (cs : List Char) : List Char :=
  (cs.reverse.takeWhile (fun c => ! isTabChar c)).reverse

/-- The indent value asserted by claim C3 as stated:
`(number of tabs) * tab_size` plus the literal character count of only the
final run of spaces; space runs followed by later tabs contribute nothing. -/
def claimC3Indent (tab_size : Nat) (cs : List Char) : Nat :=
  tab_size * tabCount cs + (finalSpaceRun cs).length

/-- The sequence of `(tab run length, following non-tab run length)` pairs
stripped by the iterations of `__detect_indent`'s loop, in order. -/
def runStepsRec : Nat → List Char → List (Nat × Nat)
  | _, [] => []
  | 0, _ :: _ => []
  | fuel + 1, c :: cs =>
    let s := indentParseStep (c :: cs)
    (s.1.length, s.2.1.length) :: runStepsRec fuel s.2.2

/-- The `(tab run, space run)` length pairs of a whitespace prefix. -/
def runPairs (cs : List Char) : List (Nat × Nat) := runStepsRec cs.length cs

/-- Lengths of the maximal non-tab runs of a whitespace prefix,
in left-to-right order (a trailing entry may be 0 when the prefix
ends in a tab). -/
def spaceRuns (cs : List Char) : List Nat := (runPairs cs).map (fun pr => pr.2)

theorem foldl_acc_add {α : Type} (g h : α → Nat) :
    ∀ (rs : List α) (a : Nat),
    rs.foldl (fun a x => a + g x + h x) a = a + (rs.map g).sum + (rs.map h).sum
  | [], a => by simp
  | r :: rs, a => by
    simp only [List.foldl_cons, List.map_cons, List.sum_cons]
    rw [foldl_acc_add g h rs (a + g r + h r)]
    omega

theorem foldl_replace {α : Type} (g : α → Nat) :
    ∀ (rs : List α) (a : Nat), rs.foldl (fun _ x => g x) a = (rs.map g).getLastD a
  | [], a => by simp
  | r :: rs, a => by
    simp only [List.foldl_cons, List.map_cons, List.getLastD_cons]
    exact foldl_replace g rs (g r)

/-- The indent-detection loop in closed form: it folds over the stripped
`(tab run, non-tab run)` pairs, accumulating full tabs and overwriting
the pending sub-tab space remainder at every step. -/
theorem detectIndentLoop_spec (ts : Nat) :
    ∀ (fuel : Nat) (cs : List Char) (ft p0 : Nat), cs.length ≤ fuel →
    detectIndentLoop ts fuel cs ft p0 =
      ((runStepsRec fuel cs).foldl (fun a pr => a + pr.1 + pr.2 / ts) ft,
       (runStepsRec fuel cs).foldl (fun _ pr => pr.2 % ts) p0)
  | fuel, [], ft, p0, _ => by cases fuel <;> simp [detectIndentLoop, runStepsRec]
  | 0, c :: cs', ft, p0, h => by simp at h
  | fuel + 1, c :: cs', ft, p0, h => by
    have hlen : (indentParseStep (c :: cs')).2.2.length ≤ fuel := by
      have := indentParseStep_shrink c cs'
      simp only [List.length_cons] at h this
      omega
    rw [detectIndentLoop, runStepsRec]
    rw [detectIndentLoop_spec ts fuel _ _ _ hlen]
    simp only [List.foldl_cons]

theorem map_filter_takeWhile_self (p : Char → Bool) (l : List Char) :
    ((l.takeWhile p).filter p).length = (l.takeWhile p).length := by
  congr 1
  refine List.filter_eq_self.mpr (fun a ha => ?_)
  exact List.mem_takeWhile_imp ha

theorem filter_takeWhile_not (p : Char → Bool) (l : List Char) :
    (l.takeWhile (fun c => ! p c)).filter p = [] := by
  refine List.filter_eq_nil.mpr (fun a ha => ?_)
  have := List.mem_takeWhile_imp ha
  simp at this
  simp [this]

/-- The tab runs stripped by the loop account for exactly the tab
characters of the prefix. -/
theorem runStepsRec_tab_sum :
    ∀ (fuel : Nat) (cs : List Char), cs.length ≤ fuel →
    ((runStepsRec fuel cs).map (fun pr => pr.1)).sum = tabCount cs
  | fuel, [], _ => by cases fuel <;> simp [runStepsRec, tabCount]
  | 0, c :: cs', h => by simp at h
  | fuel + 1, c :: cs', h => by
    have hlen : (indentParseStep (c :: cs')).2.2.length ≤ fuel := by
      have := indentParseStep_shrink c cs'
      simp only [List.length_cons] at h this
      omega
    rw [runStepsRec]
    simp only [List.map_cons, List.sum_cons]
    rw [runStepsRec_tab_sum fuel _ hlen]
    show (List.takeWhile isTabChar (c :: cs')).length + tabCount (indentParseStep (c :: cs')).2.2
        = tabCount (c :: cs')
    unfold tabCount indentParseStep
    dsimp only
    conv_rhs => rw [← List.takeWhile_append_dropWhile isTabChar (c :: cs')]
    rw [← List.takeWhile_append_dropWhile
      (fun c => ! isTabChar c) (List.dropWhile isTabChar (c :: cs'))]
    rw [List.filter_append, List.filter_append, List.length_append, List.length_append]
    rw [map_filter_takeWhile_self, filter_takeWhile_not]
    simp [List.takeWhile_append_dropWhile]

/-- C3 counterexample: for the whitespace-only indent prefix of four
spaces followed by one tab (`tab_size = 4`), `__detect_indent` yields 8
(the four spaces are promoted to a full tab), while the claimed formula
— tabs times tab size plus only the final space run — yields 4. -/
theorem claim_C3_counterexample :
    (∀ c ∈ [' ', ' ', ' ', ' ', '\t'], isPySpace c = true) ∧
    detect_indent TAB_SIZE [' ', ' ', ' ', ' ', '\t'] = 8 ∧
    claimC3Indent TAB_SIZE [' ', ' ', ' ', ' ', '\t'] = 4 ∧
    detect_indent TAB_SIZE [' ', ' ', ' ', ' ', '\t']
      ≠ claimC3Indent TAB_SIZE [' ', ' ', ' ', ' ', '\t'] := by
  refine ⟨?_, by decide, by decide, by decide⟩
  decide

/-- C3 (amended): for every whitespace-only indent prefix and positive
tab size, `__detect_indent` returns `tab_size * (number of tab characters)`
plus, for **every** maximal space run, `tab_size * (run length / tab_size)`
(its full-tab multiples are promoted to tabs, not discarded), plus the
sub-tab remainder (`length mod tab_size`) of only the final run.  Only the
sub-tab remainder of a non-final space run is discarded. -/
theorem claim_C3_amended (ts : Nat) (cs : List Char)
    (hts : 0 < ts) (hws : ∀ c ∈ cs, isPySpace c = true) :
    detect_indent ts cs =
      ts * tabCount cs
        + ts * ((spaceRuns cs).map (fun r => r / ts)).sum
        + ((spaceRuns cs).map (fun r => r % ts)).getLastD 0 := by
  clear hts hws
  unfold detect_indent
  rcases eq_or_ne cs [] with h | h
  · simp [h, tabCount, spaceRuns, runPairs, runStepsRec]
  · simp only [h, if_false]
    rw [detectIndentLoop_spec ts cs.length cs 0 0 (le_refl _)]
    dsimp only
    rw [foldl_acc_add (fun pr : Nat × Nat => pr.1) (fun pr : Nat × Nat => pr.2 / ts)]
    rw [foldl_replace (fun pr : Nat × Nat => pr.2 % ts)]
    rw [← runStepsRec_tab_sum cs.length cs (le_refl _)]
    simp only [spaceRuns, runPairs, List.map_map, Function.comp_def]
    ring

theorem claim_C3_amended_witness :
    (0 < TAB_SIZE ∧ ∀ c ∈ [' ', '\t', ' '], isPySpace c = true) ∧
    detect_indent TAB_SIZE [' ', '\t', ' '] =
      TAB_SIZE * tabCount [' ', '\t', ' ']
        + TAB_SIZE * ((spaceRuns [' ', '\t', ' ']).map (fun r => r / TAB_SIZE)).sum
        + ((spaceRuns [' ', '\t', ' ']).map (fun r => r % TAB_SIZE)).getLastD 0 :=
  ⟨⟨by decide, by decide⟩,
    claim_C3_amended TAB_SIZE [' ', '\t', ' '] (by decide) (by decide)⟩

/-- One latin letter, `[a-zA-Z]` of the numbering regex. -/
def isLatinLetter (c : Char) : Bool :=
  ('a' ≤ c && c ≤ 'z') || ('A' ≤ c && c ≤ 'Z')

/-- One ASCII digit, `\d` of the numbering regex (ASCII model). -/
def isAsciiDigit (c : Char) : Bool := '0' ≤ c && c ≤ '9'

/-- `[a-zA-Z0-9]`, the character class of `_re_has_alphanumeric`. -/
def isLatinAlnum (c : Char) : Bool := isLatinLetter c || isAsciiDigit c

/-- Python `str.rstrip()`: drop trailing whitespace. -/
def rstripPy (cs : List Char) : List Char :=
  (cs.reverse.dropWhile isPySpace).reverse

/-- The numbering regex's inner separator class: ``[_'`´,.:)~—–-]``
(underscore, apostrophe, backtick, acute accent, comma, period, colon,
closing parenthesis, tilde, em dash, en dash, hyphen). -/
def numSepChars : List Char :=
  ['_', Char.ofNat 39, Char.ofNat 96, Char.ofNat 180, ',', '.', ':', ')',
   '~', Char.ofNat 8212, Char.ofNat 8211, '-']

/-- The numbering regex's final separator class `[.:)]`. -/
def numFinalSepChars : List Char := ['.', ':', ')']

/-- One repetition of the numbering regex's optional prefix part
`\s*(?:\d+|[a-zA-Z])[_'`´,.:)~—–-]+`, returning the remaining input.
Within one repetition all runs are forced (no backtracking can help):
the separator class is disjoint from whitespace, digits and letters,
so shrinking a maximal run always leaves an impossible next character. -/
def matchOneRep (cs : List Char) : Option (List Char) :=
  let r1 := cs.dropWhile isPySpace
  let core :=
    if r1.takeWhile isAsciiDigit ≠ [] then some (r1.dropWhile isAsciiDigit)
    else
      match r1 with
      | c :: rest => if isLatinLetter c then some rest else none
      | [] => none
  match core with
  | none => none
  | some r2 =>
    if r2.takeWhile (fun c => numSepChars.contains c) = [] then none
    else some (r2.dropWhile (fun c => numSepChars.contains c))

/-- The mandatory tail of the numbering regex,
`\s*(?:\d+|[a-zA-Z])[.:)]+`, returning the remaining input.
Runs are again forced: the following `\s*(.*?)$` always matches,
so the greedy maximal runs are the match. -/
def numTail (cs : List Char) : Option (List Char) :=
  let r1 := cs.dropWhile isPySpace
  let core :=
    if r1.takeWhile isAsciiDigit ≠ [] then some (r1.dropWhile isAsciiDigit)
    else
      match r1 with
      | c :: rest => if isLatinLetter c then some rest else none
      | [] => none
  match core with
  | none => none
  | some r2 =>
    if r2.takeWhile (fun c => numFinalSepChars.contains c) = [] then none
    else some (r2.dropWhile (fun c => numFinalSepChars.contains c))

/-- The starred prefix of the numbering regex followed by its mandatory
tail, with the regex engine's greedy backtracking over the repetition
count: try one more repetition first; if no deeper match exists, fall
back to matching the tail at the current position.  Every repetition
consumes at least two characters, so `fuel = length` never runs out. -/
def numStar : Nat → List Char → Option (List Char)
  | 0, cs => numTail cs
  | fuel + 1, cs =>
    match matchOneRep cs with
    | none => numTail cs
    | some rest =>
      match numStar fuel rest with
      | some r => some r
      | none => numTail cs

/-- `_re_number_match_` as a match function: on success returns
`(group 1, group 2)` — the verbatim numbering token and the rest of the
line with the whitespace after the token skipped. -/
def number_match (cs : List Char) : Option (List Char × List Char) :=
  match numStar cs.length cs with
  | none => none
  | some rest =>
    some (cs.take (cs.length - rest.length), rest.dropWhile isPySpace)

/-- The match function built by `_re_bullet_match_factory`:
`([bullets]+)(?:\s+(.*?)|\s*)$`.  A maximal run of bullet characters must
be followed by whitespace or end of line; the captured text group is the
rest with the separating whitespace skipped (`[]` both for a bare bullet
and for a bullet followed only by whitespace).  Backtracking over the
bullet run cannot help because validated bullet characters are never
whitespace, so the model commits to the maximal run. -/
def bullet_match (in_bullets : List Char) (cs : List Char) : Option (List Char × List Char) :=
  let b := cs.takeWhile (fun c => in_bullets.contains c)
  if b = [] then none
  else
    let rest := cs.dropWhile (fun c => in_bullets.contains c)
    match rest with
    | [] => some (b, [])
    | c :: _ => if isPySpace c then some (b, rest.dropWhile isPySpace) else none

/-- The `DocstringToText` configuration (its cleaned public attributes).
`tab_size` is a `Nat` because `_ArgsKey.clean_key` clamps it to at least 1;
`out_bullets` is `none` when no output substitution is configured. -/
structure DocstringToText where
  indent_empty_lines : Bool := false
  minimize_indents : Bool := true
  list_with_indent : Bool := true
  list_no_indent : Bool := true
  tab_size : Nat := TAB_SIZE
  in_bullets : List Char := IN_BULLETS
  out_bullets : Option (List Char) := some OUT_BULLETS
deriving DecidableEq, Repr

/-- `DocstringToText.__parse_line`: split one raw line into a
`ParsedLine`.  `_re_indent_match` = `(\s*)(.*?)$` always matches, so its
`if not match` early return is dead code.  NOTE (source defect, claim C4):
in the source, when the remaining text is empty the empty `ParsedLine(0,
is_empty=True, ...)` is constructed but **not returned** (the `return`
keyword is missing), so control falls through to the plain-text
constructor with `is_empty=False`; this model reproduces that. -/
def parse_line (cfg : DocstringToText) (line : List Char) : ParsedLine :=
  let text0 := rstripPy line
  let indent_str := text0.takeWhile isPySpace
  let text1 := text0.dropWhile isPySpace
  let indent : Int := (detect_indent cfg.tab_size indent_str : Nat)
  match bullet_match cfg.in_bullets text1 with
  | some bt =>
    { indent := indent, is_empty := false, is_list := true, list_level := -1,
      bullet := bt.1, number := [], text := bt.2 }
  | none =>
  match number_match text1 with
  | some nt =>
    { indent := indent, is_empty := false, is_list := true, list_level := -1,
      bullet := [], number := nt.1, text := nt.2 }
  | none =>
    { indent := indent, is_empty := false, is_list := false, list_level := -1,
      bullet := [], number := [], text := text1 }

/-- C4: the Line Parser on a blank (whitespace-only) line.  The source
*intends* to return an empty Line (`is_empty=True`, indent 0) — it even
constructs it — but the missing `return` makes it fall through and
produce a non-empty plain-text record with empty text instead.  This
evaluates the code at the failing input `"   "`: the result has
`is_empty = false`, contradicting the claim. -/
theorem claim_C4_blank_line_not_empty :
    rstripPy [' ', ' ', ' '] = [] ∧
    parse_line {} [' ', ' ', ' '] =
      { indent := 0, is_empty := false, is_list := false, list_level := -1,
        bullet := [], number := [], text := [] } ∧
    (parse_line {} [' ', ' ', ' ']).is_empty = false := by
  refine ⟨by decide, by decide, by decide⟩

/-- `' '.join(x.text for x in pending_block)`. -/
def joinTexts (pending : List ParsedLine) : List Char :=
  List.intercalate [' '] (pending.map (fun x => x.text))

/-- `DocstringToText.__flush_raw_active_block`: flush a pending block,
returning the lines to append to the joined list (the source mutates
`joined_blocks` and clears `pending_block`).  `none` models the failing
internal-consistency `assert` on heterogeneous block-IDs. -/
def flush_raw_active_block (pending : List ParsedLine) : Option (List ParsedLine) :=
  match pending with
  | [] => some []
  | first :: restP =>
    if restP.all (fun x => x.block_id = first.block_id) then
      if first.is_list || first.is_empty then some pending
      else
        some [{ indent := first.indent, is_empty := false, is_list := false,
                list_level := -1, bullet := [], number := [],
                text := joinTexts pending }]
    else none

/-- The loop state of `__pass1_join_raw_blocks`. -/
structure Pass1State where
  joined : List ParsedLine
  pending : List ParsedLine
  active_indent : Int
  active_block : BlockType
  is_after_empty_line : Bool
deriving DecidableEq, Repr

/-- The step of `__pass1_join_raw_blocks`' loop taken when a non-empty
line follows a run of empty lines: flush the pending (empty-line) run and
clear the after-empty flag.  (In the source this is inlined in the loop
body: `if is_after_empty_line: flush; is_after_empty_line = False`.) -/
def pass1_flush_after_empty (st : Pass1State) : Option Pass1State :=
  if st.is_after_empty_line then
    match flush_raw_active_block st.pending with
    | none => none
    | some fl =>
      some { st with is_after_empty_line := false,
                     joined := st.joined ++ fl, pending := [] }
  else some st

/-- The per-line loop of `__pass1_join_raw_blocks`. -/
def pass1_loop : List ParsedLine → Pass1State → Option Pass1State
  | [], st => some st
  | line :: rest, st =>
    if line.is_empty then
      if st.is_after_empty_line then
        pass1_loop rest { st with pending := st.pending ++ [line] }
      else
        match flush_raw_active_block st.pending with
        | none => none
        | some fl =>
          pass1_loop rest
            { st with is_after_empty_line := true,
                      joined := st.joined ++ fl, pending := [] }
    else
      match pass1_flush_after_empty st with
      | none => none
      | some st2 =>
        if line.indent = st2.active_indent ∧ line.block_type = st2.active_block then
          pass1_loop rest { st2 with pending := st2.pending ++ [line] }
        else
          match flush_raw_active_block st2.pending with
          | none => none
          | some fl =>
            pass1_loop rest
              { st2 with joined := st2.joined ++ fl, pending := [line],
                         active_indent := line.indent,
                         active_block := line.block_type }

/-- `DocstringToText.__pass1_join_raw_blocks`: strip the common indent,
then group consecutive same-indent/same-kind lines.  NOTE (source defect,
claim C5): after the loop the source returns immediately; the still
pending final block is never flushed, so its lines are dropped.  This
model discards `st.pending` just as the source does. -/
def pass1_join_raw_blocks (parsed_text : List ParsedLine) : Option (Int × List ParsedLine) :=
  let u := ParsedLine.unindent parsed_text
  match pass1_loop u.2 ⟨[], [], 0, BlockType.Indent, false⟩ with
  | none => none
  | some st => some (u.1, st.joined)

/-- A non-empty plain-text line at indent 1. -/
def c5LineA : ParsedLine :=
  { indent := 1, is_empty := false, is_list := false, list_level := -1,
    bullet := [], number := [], text := ['x'] }

/-- A non-empty plain-text line at indent 0. -/
def c5LineB : ParsedLine :=
  { indent := 0, is_empty := false, is_list := false, list_level := -1,
    bullet := [], number := [], text := ['y'] }

/-- C5: evaluating Pass 1 at the failing input.  The input holds two
non-empty lines at indents 1 and 0, so the common indent is 0 and, per
the claim, the output's minimum non-empty indent should be 0.  But the
loop never flushes its final pending run, so the trailing indent-0 line
is dropped: the returned sequence holds only the indent-1 paragraph and
its minimum non-empty indent is 1, not 0. -/
theorem claim_C5_pass1_drops_trailing_block :
    pass1_join_raw_blocks [c5LineA, c5LineB] = some (0, [c5LineA]) ∧
    c5LineB.is_empty = false ∧ c5LineB.indent = 0 ∧
    (∀ l ∈ [c5LineA], l.is_empty = false → l.indent ≠ 0) := by
  refine ⟨by decide, by decide, by decide, by decide⟩

/-- Cached-flag consistency of a `ParsedLine`, as the Line Parser is
specified to produce it: nonnegative indent; an empty line carries no
content and sits at indent 0; `is_list` caches "bullet or number
non-empty"; bullet and number are never both present. -/
def LineWF (l : ParsedLine) : Prop :=
  0 ≤ l.indent ∧
  (l.is_empty = true → l.indent = 0 ∧ l.bullet = [] ∧ l.number = [] ∧ l.text = []) ∧
  (l.is_list = true ↔ (l.bullet ≠ [] ∨ l.number ≠ [])) ∧
  ¬(l.bullet ≠ [] ∧ l.number ≠ [])

instance : DecidablePred LineWF := fun l => by unfold LineWF; infer_instance

theorem block_id_of_wf_empty (l : ParsedLine) (h : LineWF l) (he : l.is_empty = true) :
    l.block_id = (0, true, false, false, false) := by
  obtain ⟨h0, hemp, hlist, hboth⟩ := h
  obtain ⟨hi, hb, hn, ht⟩ := hemp he
  have hl : l.is_list = false := by
    cases hll : l.is_list
    · rfl
    · exact absurd (hlist.mp hll) (by simp [hb, hn])
  simp [ParsedLine.block_id, hi, he, hl, hb, hn]

/-- The block-ID every consistent non-empty line of a given indent and
block type carries. -/
def idOf (i : Int) (t : BlockType) : Int × Bool × Bool × Bool × Bool :=
  (i, false, t ≠ BlockType.Indent, t = BlockType.Bullet, t = BlockType.Number)

theorem block_id_of_wf (l : ParsedLine) (h : LineWF l) (he : l.is_empty = false) :
    l.block_id = idOf l.indent l.block_type := by
  obtain ⟨h0, hemp, hlist, hboth⟩ := h
  unfold ParsedLine.block_id idOf ParsedLine.block_type
  by_cases hl : l.is_list = true
  · by_cases hb : l.bullet = []
    · have hn : l.number ≠ [] := by
        rcases hlist.mp hl with h | h
        · exact absurd h (by simp [hb])
        · exact h
      simp [hl, hb, hn, he]
    · have hn : l.number = [] := by
        by_contra hn
        exact hboth ⟨hb, hn⟩
      simp [hl, hb, hn, he]
  · have hbn : ¬(l.bullet ≠ [] ∨ l.number ≠ []) := fun hc => hl (hlist.mpr hc)
    push_neg at hbn
    obtain ⟨hb, hn⟩ := hbn
    have hl' : l.is_list = false := by
      cases hll : l.is_list
      · rfl
      · exact absurd hll hl
    simp [hl', hb, hn, he]

theorem flush_isSome (pending : List ParsedLine)
    (bid : Int × Bool × Bool × Bool × Bool)
    (h : ∀ l ∈ pending, l.block_id = bid) :
    (flush_raw_active_block pending).isSome := by
  match pending with
  | [] => simp [flush_raw_active_block]
  | first :: restP =>
    have hall : restP.all (fun x => x.block_id = first.block_id) = true := by
      rw [List.all_eq_true]
      intro x hx
      have h1 := h x (List.mem_cons_of_mem _ hx)
      have h2 := h first (List.mem_cons_self _ _)
      simp [h1, h2]
    rw [flush_raw_active_block]
    rw [if_pos hall]
    split <;> simp

/-- Loop invariant for `pass1_loop`: a pending run after an empty line
consists only of consistent empty lines (all sharing the empty
block-ID); otherwise it consists of non-empty lines at the active indent
and active block type (all sharing that block-ID). -/
def StInv (st : Pass1State) : Prop :=
  (st.is_after_empty_line = true →
    ∀ l ∈ st.pending, l.block_id = (0, true, false, false, false)) ∧
  (st.is_after_empty_line = false →
    ∀ l ∈ st.pending, l.block_id = idOf st.active_indent st.active_block)

theorem pass1_loop_isSome : ∀ (lines : List ParsedLine) (st : Pass1State),
    (∀ l ∈ lines, LineWF l) → StInv st → (pass1_loop lines st).isSome
  | [], st, _, _ => by simp [pass1_loop]
  | line :: rest, st, hwf, hinv => by
    have hwfl : LineWF line := hwf line (List.mem_cons_self _ _)
    have hwfr : ∀ l ∈ rest, LineWF l := fun l hl => hwf l (List.mem_cons_of_mem _ hl)
    have hpend : ∃ bid, ∀ l ∈ st.pending, l.block_id = bid := by
      cases hflag : st.is_after_empty_line
      · exact ⟨_, hinv.2 hflag⟩
      · exact ⟨_, hinv.1 hflag⟩
    obtain ⟨bid0, hbid0⟩ := hpend
    rw [pass1_loop]
    by_cases hemp : line.is_empty = true
    · rw [if_pos hemp]
      cases hflag : st.is_after_empty_line with
      | true =>
        rw [if_pos rfl]
        apply pass1_loop_isSome rest _ hwfr
        refine ⟨fun _ l hl => ?_, fun hff => by simp [hflag] at hff⟩
        rcases List.mem_append.mp hl with h | h
        · exact hinv.1 hflag l h
        · have : l = line := by simpa using h
          subst this
          exact block_id_of_wf_empty l hwfl hemp
      | false =>
        rw [if_neg (by simp [hflag])]
        obtain ⟨fl, hfl⟩ := Option.isSome_iff_exists.mp
          (flush_isSome st.pending bid0 hbid0)
        rw [hfl]
        apply pass1_loop_isSome rest _ hwfr
        exact ⟨fun _ l hl => by simp at hl, fun _ l hl => by simp at hl⟩
    · rw [if_neg hemp]
      have hne : line.is_empty = false := by
        cases hee : line.is_empty
        · rfl
        · exact absurd hee hemp
      -- resolve the flush-after-empty-run step
      cases hflag : st.is_after_empty_line with
      | true =>
        obtain ⟨fl, hfl⟩ := Option.isSome_iff_exists.mp
          (flush_isSome st.pending bid0 hbid0)
        set st2 : Pass1State :=
          { st with is_after_empty_line := false,
                    joined := st.joined ++ fl, pending := [] } with hst2
        have hstep : pass1_flush_after_empty st = some st2 := by
          unfold pass1_flush_after_empty
          rw [hflag, if_pos rfl, hfl, hst2]
        simp only [hstep]
        by_cases hmatch : line.indent = st2.active_indent ∧ line.block_type = st2.active_block
        · rw [if_pos hmatch]
          apply pass1_loop_isSome rest _ hwfr
          refine ⟨fun hff => by simp [hst2] at hff, fun _ l hl => ?_⟩
          simp only [hst2] at hl
          simp only [List.nil_append] at hl
          have : l = line := by simpa using hl
          subst this
          rw [block_id_of_wf l hwfl hne, hmatch.1, hmatch.2]
        · rw [if_neg hmatch]
          have : (flush_raw_active_block st2.pending).isSome :=
            flush_isSome _ bid0 (fun l hl => by simp [hst2] at hl)
          obtain ⟨fl2, hfl2⟩ := Option.isSome_iff_exists.mp this
          rw [hfl2]
          apply pass1_loop_isSome rest _ hwfr
          refine ⟨fun hff => by simp [hst2] at hff, fun _ l hl => ?_⟩
          have : l = line := by simpa using hl
          subst this
          exact block_id_of_wf l hwfl hne
      | false =>
        have hstep : pass1_flush_after_empty st = some st := by
          unfold pass1_flush_after_empty
          rw [hflag]
          simp
        simp only [hstep]
        by_cases hmatch : line.indent = st.active_indent ∧ line.block_type = st.active_block
        · rw [if_pos hmatch]
          apply pass1_loop_isSome rest _ hwfr
          refine ⟨fun hff => by simp [hflag] at hff, fun _ l hl => ?_⟩
          rcases List.mem_append.mp hl with h | h
          · exact hinv.2 hflag l h
          · have : l = line := by simpa using h
            subst this
            rw [block_id_of_wf l hwfl hne, hmatch.1, hmatch.2]
        · rw [if_neg hmatch]
          obtain ⟨fl, hfl⟩ := Option.isSome_iff_exists.mp
            (flush_isSome st.pending bid0 hbid0)
          rw [hfl]
          apply pass1_loop_isSome rest _ hwfr
          refine ⟨fun hff => by simp [hflag] at hff, fun _ l hl => ?_⟩
          have : l = line := by simpa using hl
          subst this
          exact block_id_of_wf l hwfl hne

theorem unindent_wf (lines : List ParsedLine) (h : ∀ l ∈ lines, LineWF l) :
    ∀ l ∈ (ParsedLine.unindent lines).2, LineWF l := by
  have key : (ParsedLine.unindent lines).2 = lines ∨
      ∃ c : Int, 0 ≤ c ∧
        (ParsedLine.unindent lines).2 = ParsedLine.offset_indent lines (0 - c) := by
    unfold ParsedLine.unindent
    dsimp only
    cases hmin : ((lines.filter (fun x => ! x.is_empty)).map (fun x => x.indent)).min? with
    | none => exact Or.inl rfl
    | some c =>
      right
      refine ⟨c, ?_, rfl⟩
      have hc : c ∈ (lines.filter (fun x => ! x.is_empty)).map (fun x => x.indent) :=
        List.min?_mem (fun a b => min_choice a b) hmin
      obtain ⟨x, hx, hxc⟩ := List.mem_map.mp hc
      have := (h x (List.mem_of_mem_filter hx)).1
      omega
  rcases key with hk | ⟨c, hc, hk⟩
  · rw [hk]
    exact h
  · rw [hk]
    intro l hl
    unfold ParsedLine.offset_indent at hl
    by_cases hoff : (0 - c : Int) = 0
    · rw [if_pos hoff] at hl
      exact h l hl
    · rw [if_neg hoff] at hl
      obtain ⟨x, hx, hxl⟩ := List.mem_map.mp hl
      have hwx := h x hx
      subst hxl
      obtain ⟨h0, hemp, hlist, hboth⟩ := hwx
      refine ⟨le_max_right _ _, fun he => ?_, hlist, hboth⟩
      obtain ⟨hi, hb, hn, ht⟩ := hemp he
      refine ⟨?_, hb, hn, ht⟩
      simp only [hi]
      omega

/-- C6: for every input of consistently flagged lines, Pass 1's internal
consistency check never fails — each pending run is homogeneous in
block-ID at every flush, so `pass1_join_raw_blocks` always succeeds
(the assertion's error branch is unreachable). -/
theorem claim_C6_flush_assert_unreachable (lines : List ParsedLine)
    (h : ∀ l ∈ lines, LineWF l) :
    (pass1_join_raw_blocks lines).isSome := by
  unfold pass1_join_raw_blocks
  have h2 := unindent_wf lines h
  have hsome := pass1_loop_isSome (ParsedLine.unindent lines).2
    ⟨[], [], 0, BlockType.Indent, false⟩ h2
    ⟨fun hff => by simp at hff, fun _ l hl => by simp at hl⟩
  obtain ⟨st, hst⟩ := Option.isSome_iff_exists.mp hsome
  simp only [hst]
  rfl

theorem claim_C6_witness :
    (∀ l ∈ [c5LineA, c5LineB], LineWF l) ∧
    (pass1_join_raw_blocks [c5LineA, c5LineB]).isSome :=
  ⟨by decide, claim_C6_flush_assert_unreachable [c5LineA, c5LineB] (by decide)⟩

instance instDecEqExcept {ε α : Type} [DecidableEq ε] [DecidableEq α] :
    DecidableEq (Except ε α) := fun a b =>
  match a, b with
  | Except.error x, Except.error y =>
    if h : x = y then Decidable.isTrue (congrArg _ h)
    else Decidable.isFalse (fun hc => h (Except.error.inj hc))
  | Except.ok x, Except.ok y =>
    if h : x = y then Decidable.isTrue (congrArg _ h)
    else Decidable.isFalse (fun hc => h (Except.ok.inj hc))
  | Except.error _, Except.ok _ => Decidable.isFalse (fun hc => Except.noConfusion hc)
  | Except.ok _, Except.error _ => Decidable.isFalse (fun hc => Except.noConfusion hc)

/-- `_ArgsKey.__cleanup_bullets_attr_to_str` (on the already joined
string): `''.join(s.split())` removes every whitespace character. -/
def cleanup_bullets_attr_to_str (s : List Char) : List Char :=
  s.filter (fun c => ! isPySpace c)

/-- `_ArgsKey` named tuple: the cleaned argument key identifying a
`DocstringToText` configuration. -/
structure ArgsKey where
  indent_empty_lines : Bool
  minimize_indents : Bool
  list_with_indent : Bool
  list_no_indent : Bool
  tab_size : Int
  in_bullets : List Char
  out_bullets : Option (List Char)
deriving DecidableEq, Repr

/-- `_ArgsKey.clean_key`: clean all constructor arguments.  A bullet set
that is empty after whitespace removal silently falls back to the default
`IN_BULLETS`; the subsequent sanity check (which raises `ValueError`)
only probes for emptiness and the four whitespace characters of
`' \t\n\r'`.  `tab_size` is clamped to at least 1. -/
def clean_key (indent_empty_lines minimize_indents list_with_indent list_no_indent : Bool)
    (tab_size : Int) (in_bullets : List Char) (out_bullets : Option (List Char)) :
    Except (List Char) ArgsKey :=
  let ib0 := cleanup_bullets_attr_to_str in_bullets
  let ib := if ib0 = [] then cleanup_bullets_attr_to_str IN_BULLETS else ib0
  if ib = [] || [' ', '\t', '\n', '\r'].any (fun c => ib.contains c) then
    Except.error "invalid IN_BULLETS at runtime".data
  else
    let ob : Option (List Char) :=
      match out_bullets with
      | none => none
      | some o =>
        let oc := cleanup_bullets_attr_to_str o
        if oc = [] then none else some oc
    match ob with
    | none =>
      Except.ok ⟨indent_empty_lines, minimize_indents, list_with_indent,
        list_no_indent, max tab_size 1, ib, none⟩
    | some oc =>
      if oc = [] || [' ', '\t', '\n', '\r'].any (fun c => oc.contains c) then
        Except.error "unexpected value for out_bullets".data
      else
        Except.ok ⟨indent_empty_lines, minimize_indents, list_with_indent,
          list_no_indent, max tab_size 1, ib, some oc⟩

/-- The input validation of `_re_bullet_match_factory` (its `TypeError`
branch is unrepresentable here because the argument is typed): raises on
an empty set, on any whitespace character (`_re_has_whitespaces`) and on
any latin letter or digit (`_re_has_alphanumeric`). -/
def re_bullet_match_factory_check (in_bullets : List Char) : Except (List Char) Unit :=
  if in_bullets = [] then Except.error "not a set of in-bullet characters".data
  else if in_bullets.any isPySpace then Except.error "bullet set contains whitespace".data
  else if in_bullets.any isLatinAlnum then Except.error "bullet set contains alphanumerics".data
  else Except.ok ()

/-- Construction of a `DocstringToText` instance: `__new__` runs
`_ArgsKey.clean_key` and `__post_init__` then runs
`_re_bullet_match_factory` on the cleaned `in_bullets`.  Any raise from
either aborts construction. -/
def dtt_construct (indent_empty_lines minimize_indents list_with_indent list_no_indent : Bool)
    (tab_size : Int) (in_bullets : List Char) (out_bullets : Option (List Char)) :
    Except (List Char) ArgsKey :=
  match clean_key indent_empty_lines minimize_indents list_with_indent list_no_indent
      tab_size in_bullets out_bullets with
  | Except.error e => Except.error e
  | Except.ok key =>
    match re_bullet_match_factory_check key.in_bullets with
    | Except.error e => Except.error e
    | Except.ok _ => Except.ok key

/-- C8 counterexample: a construction attempt with the all-whitespace
input bullet set `"   "` (an invalid bullet set per the claim) does NOT
raise: `clean_key` strips the whitespace, finds the set empty and
silently falls back to the default `IN_BULLETS`, and construction
succeeds.  So not every configuration attempt with an invalid bullet set
raises a validation error. -/
theorem claim_C8_counterexample :
    dtt_construct false true true true 4 [' ', ' ', ' '] (some OUT_BULLETS) =
      Except.ok ⟨false, true, true, true, 4, IN_BULLETS, some OUT_BULLETS⟩ := by
  decide

/-- C8 (amended): the bullet-set validation call itself
(`_re_bullet_match_factory`) does raise on every invalid set — empty,
containing whitespace, or containing letters/digits — in particular on an
all-whitespace string.  At configuration-construction time, however, only
letters/digits in the cleaned set raise; whitespace is silently stripped
and a set that is empty after stripping silently falls back to the
default bullet set (see C10). -/
theorem claim_C8_amended_factory_raises (s : List Char)
    (h : s = [] ∨ s.any isPySpace = true ∨ s.any isLatinAlnum = true) :
    ∃ e, re_bullet_match_factory_check s = Except.error e := by
  unfold re_bullet_match_factory_check
  split_ifs with h1 h2 h3
  · exact ⟨_, rfl⟩
  · exact ⟨_, rfl⟩
  · exact ⟨_, rfl⟩
  · rcases h with h | h | h
    · exact absurd h h1
    · exact absurd h h2
    · exact absurd h h3

theorem claim_C8_amended_factory_raises_witness :
    (([' ', '\t'] : List Char) = [] ∨ [' ', '\t'].any isPySpace = true ∨
      [' ', '\t'].any isLatinAlnum = true) ∧
    ∃ e, re_bullet_match_factory_check [' ', '\t'] = Except.error e :=
  ⟨Or.inr (Or.inl (by decide)),
    claim_C8_amended_factory_raises [' ', '\t'] (Or.inr (Or.inl (by decide)))⟩

theorem contains_filter_ws_false (o : List Char) (c : Char) (hc : isPySpace c = true) :
    ((o.filter (fun x => ! isPySpace x)).contains c) = false := by
  rw [Bool.eq_false_iff]
  intro hcon
  have hmem : c ∈ o.filter (fun x => ! isPySpace x) := by
    simpa [List.contains] using hcon
  have := (List.mem_filter.mp hmem).2
  simp [hc] at this

/-- C10: when the `in_bullets` argument becomes empty after whitespace
removal, no error is raised through this path: `clean_key` silently falls
back to the module default `IN_BULLETS`, succeeds, and produces exactly
the key that the default set produces — so the pooled instance behaves as
if the default set had been supplied. -/
theorem claim_C10_empty_bullets_fall_back_to_default (f1 f2 f3 f4 : Bool) (ts : Int)
    (s : List Char) (ob : Option (List Char))
    (h : cleanup_bullets_attr_to_str s = []) :
    clean_key f1 f2 f3 f4 ts s ob = clean_key f1 f2 f3 f4 ts IN_BULLETS ob ∧
    ∃ k, clean_key f1 f2 f3 f4 ts s ob = Except.ok k ∧ k.in_bullets = IN_BULLETS := by
  have hIB : cleanup_bullets_attr_to_str IN_BULLETS = IN_BULLETS := by decide
  have heq : clean_key f1 f2 f3 f4 ts s ob = clean_key f1 f2 f3 f4 ts IN_BULLETS ob := by
    unfold clean_key
    dsimp only
    rw [h, hIB]
    simp
  refine ⟨heq, ?_⟩
  rw [heq]
  unfold clean_key
  dsimp only
  rw [hIB]
  simp only [ite_self]
  rw [if_neg (by decide)]
  cases ob with
  | none => exact ⟨_, rfl, rfl⟩
  | some o =>
    dsimp only
    by_cases hoc : cleanup_bullets_attr_to_str o = []
    · rw [if_pos hoc]
      exact ⟨_, rfl, rfl⟩
    · rw [if_neg hoc]
      have hws : ∀ c : Char, isPySpace c = true → c ∉ cleanup_bullets_attr_to_str o := by
        intro c hc hmem
        have hmem2 : c ∈ o.filter (fun x => ! isPySpace x) := by
          simpa [cleanup_bullets_attr_to_str] using hmem
        have := (List.mem_filter.mp hmem2).2
        simp [hc] at this
      dsimp only
      rw [if_neg (by
        simp only [Bool.or_eq_true, decide_eq_true_eq, not_or]
        refine ⟨hoc, ?_⟩
        simp only [List.any_eq_true, not_exists]
        intro c hc
        obtain ⟨hcl, hcon⟩ := hc
        have hmem : c ∈ cleanup_bullets_attr_to_str o := by simpa [List.contains] using hcon
        simp only [List.mem_cons, List.not_mem_nil, or_false] at hcl
        rcases hcl with h1 | h1 | h1 | h1 <;>
          (subst h1; exact hws _ (by decide) hmem))]
      exact ⟨_, rfl, rfl⟩

theorem claim_C10_witness :
    cleanup_bullets_attr_to_str [' ', '\t'] = [] ∧
    (clean_key false true true true 4 [' ', '\t'] (some OUT_BULLETS) =
        clean_key false true true true 4 IN_BULLETS (some OUT_BULLETS) ∧
      ∃ k, clean_key false true true true 4 [' ', '\t'] (some OUT_BULLETS) = Except.ok k ∧
        k.in_bullets = IN_BULLETS) :=
  ⟨by decide,
    claim_C10_empty_bullets_fall_back_to_default false true true true 4 [' ', '\t']
      (some OUT_BULLETS) (by decide)⟩

/-- `_binary_indent`: reduce any indent to 1 or 0 (negatives clamp to 0). -/
def binary_indent (indent_spaces : Int) : Int :=
  if indent_spaces > 0 then 1 else 0

/-- `SpaceToTabsConverter.__common_block_spaces_to_tabs__round_full_tabs`:
`0` for a non-positive delta, else `max(int(indent_spaces/tab_size + 0.4999), 1)`.
The float expression is modelled exactly as the rational it denotes
(`0.4999 = 4999/10000`); the truncation is a floor because the operand is
positive.  The converter's `__post_init__` guarantees `tab_size ≥ 1`. -/
def round_full_tabs (tab_size indent_spaces : Int) : Int :=
  if indent_spaces < 1 then 0
  else max ((10000 * indent_spaces + 4999 * tab_size).fdiv (10000 * tab_size)) 1

/-- C7 counterexample: with `tab_size = 20000`, the delta `30001` lies
strictly between `tab_size*(2 - 0.5) = 30000` and `tab_size*(2 + 0.5) =
50000`, so the claim says it converts to 2 tabs; the code's `0.4999`
offset yields `int(1.50005 + 0.4999) = 1` tab instead. -/
theorem claim_C7_counterexample :
    (20000 * (2 * 2 - 1) < 2 * 30001 ∧ 2 * 30001 < 20000 * (2 * 2 + 1)) ∧
    round_full_tabs 20000 30001 = 1 ∧
    round_full_tabs 20000 30001 ≠ 2 := by
  refine ⟨⟨by decide, by decide⟩, by decide, by decide⟩

/-- C7 (amended): when `minimize_indents` is false and `tab_size = ts ≥ 1`:
a delta of exactly `ts * k` (k ≥ 1) converts to exactly `k` tabs; a delta
`d` with `ts*(k - 0.4999) ≤ d < ts*(k + 0.5001)` (the code's actual
rounding interval, stated via `10000 d` to stay in integers) converts to
`k` tabs; and every positive delta converts to at least 1 tab. -/
theorem claim_C7_amended_rounding (ts : Int) (hts : 1 ≤ ts) :
    (∀ k : Int, 1 ≤ k →
      ∀ d : Int, ts * (10000 * k - 4999) ≤ 10000 * d →
        10000 * d < ts * (10000 * k + 5001) → round_full_tabs ts d = k) ∧
    (∀ k : Int, 1 ≤ k → round_full_tabs ts (ts * k) = k) ∧
    (∀ d : Int, 0 < d → 1 ≤ round_full_tabs ts d) := by
  have core : ∀ k : Int, 1 ≤ k →
      ∀ d : Int, ts * (10000 * k - 4999) ≤ 10000 * d →
        10000 * d < ts * (10000 * k + 5001) → round_full_tabs ts d = k := by
    intro k hk d hlo hhi
    have hd1 : 1 ≤ d := by nlinarith
    unfold round_full_tabs
    rw [if_neg (by omega)]
    set N : Int := 10000 * d + 4999 * ts with hN
    set D : Int := 10000 * ts with hD
    have hDpos : 0 < D := by positivity
    have hmod := Int.fdiv_add_fmod N D
    have hr0 : 0 ≤ N.fmod D := Int.fmod_nonneg' N hDpos
    have hrD : N.fmod D < D := Int.fmod_lt_of_pos N hDpos
    set q : Int := N.fdiv D with hq
    have hqk : k ≤ q := by
      have h1 : D * k ≤ N := by rw [hN, hD]; nlinarith
      have hexp : D * (q + 1) = D * q + D := by ring
      have h2 : D * k < D * (q + 1) := by omega
      have := lt_of_mul_lt_mul_left h2 (le_of_lt hDpos)
      omega
    have hkq : q ≤ k := by
      have h1 : N < D * (k + 1) := by rw [hN, hD]; nlinarith
      have h2 : D * q < D * (k + 1) := by omega
      have := lt_of_mul_lt_mul_left h2 (le_of_lt hDpos)
      omega
    have : q = k := le_antisymm hkq hqk
    rw [this]
    omega
  refine ⟨core, fun k hk => ?_, fun d hd => ?_⟩
  · exact core k hk (ts * k) (by nlinarith) (by nlinarith)
  · unfold round_full_tabs
    rw [if_neg (by omega)]
    omega

theorem claim_C7_amended_rounding_witness :
    ((1:Int) ≤ 4 ∧ (1:Int) ≤ 3) ∧ round_full_tabs 4 (4 * 3) = 3 :=
  ⟨⟨by decide, by decide⟩, (claim_C7_amended_rounding 4 (by decide)).2.1 3 (by decide)⟩

/-- `_StackLevelBlock` named tuple of `__internal_spaces_to_tabs.py`:
one node of the Pass-2 indentation hierarchy. -/
structure StackLevelBlock where
  indent_spaces_abs : Int := 0
  indent_spaces_rel : Int := 0
  indent_tabs_abs : Int := 0
  list_level : Int := -1
  in_list : BlockType := BlockType.Indent
  block_type : BlockType := BlockType.Indent
  pending_lines : List (BlockType × ParsedLine) := []
deriving DecidableEq, Repr

/-- `SpaceToTabsConverter.__detect_sub_block_list_level`: derive a child
block's `(list_level, in_list)` from the parent stack level, the child's
block type and the tab delta of the descent.  The source's
`assert child_indent > -1` holds at every call site (the delta passed is
`0` or a nonnegative tab offset); the remaining asserts restate the
branch conditions. -/
def detect_sub_block_list_level (parent_block : StackLevelBlock)
    (child_type : BlockType) (child_indent : Int) : Int × BlockType :=
  let parent_type := parent_block.in_list
  if ¬ (child_type = BlockType.Indent ∨ child_type = parent_type) then
    (0, child_type)
  else if parent_type = BlockType.Indent then
    (-1, BlockType.Indent)
  else
    (parent_block.list_level + child_indent, parent_type)

/-- C2: the three Pass-2 list-level inheritance rules.  A child whose
kind differs from the parent's inherited list kind and is not plain text
resets the nesting level to 0 and adopts its own kind; a child of the
parent's own (list) kind descending by tab delta `d` gets the parent's
level plus `d`; an indented plain-text child of a non-list parent keeps
level -1. -/
theorem claim_C2_list_level_inheritance (parent : StackLevelBlock)
    (t : BlockType) (d : Int) :
    (t ≠ BlockType.Indent → t ≠ parent.in_list →
      detect_sub_block_list_level parent t d = (0, t)) ∧
    (parent.in_list ≠ BlockType.Indent → t = parent.in_list →
      detect_sub_block_list_level parent t d = (parent.list_level + d, parent.in_list)) ∧
    (t = BlockType.Indent → parent.in_list = BlockType.Indent →
      detect_sub_block_list_level parent t d = (-1, BlockType.Indent)) := by
  unfold detect_sub_block_list_level
  refine ⟨fun h1 h2 => ?_, fun h1 h2 => ?_, fun h1 h2 => ?_⟩
  · rw [if_pos (by simp [h1, h2])]
  · rw [if_neg (by simp [h2]), if_neg h1]
  · rw [if_neg (by simp [h1]), if_pos h2]

theorem claim_C2_witness :
    (BlockType.Bullet ≠ BlockType.Indent ∧
      ({ list_level := 1, in_list := BlockType.Bullet : StackLevelBlock }).in_list
        ≠ BlockType.Indent) ∧
    detect_sub_block_list_level
      { list_level := 1, in_list := BlockType.Bullet } BlockType.Bullet 2 =
      (3, BlockType.Bullet) :=
  ⟨⟨by decide, by decide⟩,
    (claim_C2_list_level_inheritance
      { list_level := 1, in_list := BlockType.Bullet } BlockType.Bullet 2).2.1
      (by decide) rfl⟩

/-- `SpaceToTabsConverter` (its cleaned attributes; `__post_init__`
guarantees `tab_size ≥ 1`). -/
structure SpaceToTabsConverter where
  minimize_indents : Bool := true
  tab_size : Int := (TAB_SIZE : Int)
deriving DecidableEq, Repr

/-- `_common_block_spaces_to_tabs`: `_binary_indent` when
`minimize_indents` is set, else the proportional rounding. -/
def common_block_spaces_to_tabs (cv : SpaceToTabsConverter) (indent_spaces : Int) : Int :=
  if cv.minimize_indents then binary_indent indent_spaces
  else round_full_tabs cv.tab_size indent_spaces

theorem common_block_spaces_to_tabs_nonneg (cv : SpaceToTabsConverter) (d : Int) :
    0 ≤ common_block_spaces_to_tabs cv d := by
  unfold common_block_spaces_to_tabs binary_indent round_full_tabs
  split_ifs <;> omega

/-- Default pair used only as the (never reached) out-of-range value for
indexed access in the extraction step. -/
def dfltPair : BlockType × ParsedLine :=
  (BlockType.Indent, ⟨0, true, false, -1, [], [], []⟩)

/-- `_FirstExtractedSubBlock.__detect_first_line_with_min_indent`:
the indent and index of the first non-empty line with minimal indent
(`none` for an empty or all-empty block).  The source's single
left-to-right scan keeps the first line strictly improving the running
minimum, i.e. the leftmost line attaining the overall minimum; this
recursion computes the same leftmost minimiser. -/
def detect_first_line_with_min_indent :
    List (BlockType × ParsedLine) → Option (Int × Nat)
  | [] => none
  | tl :: rest =>
    let r := detect_first_line_with_min_indent rest
    if tl.2.is_empty then r.map (fun mi => (mi.1, mi.2 + 1))
    else
      match r with
      | none => some (tl.2.indent, 0)
      | some (m, i) =>
        if tl.2.indent ≤ m then some (tl.2.indent, 0) else some (m, i + 1)

/-- `_FirstExtractedSubBlock` named tuple. -/
structure FirstExtractedSubBlock where
  common_indent : Int
  extracted_is_final : Bool
  block_type : BlockType
  extracted : List (BlockType × ParsedLine) := []
  pending : List (BlockType × ParsedLine) := []
deriving DecidableEq, Repr

/-- The per-line predicate of the general extraction loop:
`line.is_empty or (line.indent == 0 and line_type == first_real_line_type)`. -/
def extractGeneralPred (first_type : BlockType) (tl : BlockType × ParsedLine) : Bool :=
  tl.2.is_empty || (tl.2.indent == 0 && tl.1 == first_type)

/-- `_FirstExtractedSubBlock.extract_from_pending_block`: split a pending
block into the first distinguishable chunk and the remaining lines.
The general case's loop takes the maximal prefix satisfying
`extractGeneralPred` and re-queues the rest, i.e. a takeWhile/dropWhile
split. -/
def extract_from_pending_block (pending_lines : List (BlockType × ParsedLine)) :
    FirstExtractedSubBlock :=
  match pending_lines with
  | [] => ⟨0, true, BlockType.Indent, [], []⟩
  | _ :: _ =>
    match detect_first_line_with_min_indent pending_lines with
    | none => ⟨0, true, BlockType.Indent, pending_lines, []⟩
    | some (min_indent, i) =>
      let first_real_line_type := (pending_lines.getD i dfltPair).1
      if min_indent ≠ 0 then
        ⟨min_indent, false, first_real_line_type, pending_lines, []⟩
      else if 0 < i ∧ ¬ (pending_lines.take i).all (fun tl => tl.2.is_empty) then
        ⟨0, false, first_real_line_type, pending_lines.take i, pending_lines.drop i⟩
      else
        ⟨0, true, first_real_line_type,
          pending_lines.takeWhile (extractGeneralPred first_real_line_type),
          pending_lines.dropWhile (extractGeneralPred first_real_line_type)⟩

/-- `flush_to_output` of `SpaceToTabsConverter.convert`: set every
line's indent (now in tabs) and list level in place. -/
def flushLines (chunk : List (BlockType × ParsedLine)) (tab_indent list_level : Int) :
    List ParsedLine :=
  chunk.map (fun tl => { tl.2 with indent := tab_indent, list_level := list_level })

/-- `ParsedLine.offset_indent(lines, -m)` on the pre-classified
`(block type, line)` pairs of a pending chunk, as the indented branch of
`convert` applies it in place (the `offset == 0` early return cannot
trigger there because `common_indent ≠ 0` in that branch). -/
def offset_lines_by (m : Int) (chunk : List (BlockType × ParsedLine)) :
    List (BlockType × ParsedLine) :=
  chunk.map (fun tl => (tl.1, { tl.2 with indent := max (tl.2.indent - m) 0 }))

/-- One iteration of `SpaceToTabsConverter.convert`'s stack-walking loop
on the popped level `ab`: returns the lines flushed to output and the
levels pushed back onto the stack (head = new top), or `none` for an
`AssertionError`.  The final-extraction branch asserts
`split.common_indent == 0 and not split.pending` before flushing; a
non-empty `split.pending` makes it fail (reachably — see claim C1), so
the code below it that would re-push the pending lines is dead under
assert semantics and is not modelled.  The `[]` arm of the last match
models that branch's `assert pending_lines` (never reached: the split
extraction case always leaves a non-empty remainder).  The in-place
`offset_indent(..., -common_indent_spaces)` is the clamped map (its
`offset == 0` early return cannot trigger since `common_indent ≠ 0` in
that branch). -/
def convertStep (cv : SpaceToTabsConverter) (ab : StackLevelBlock) :
    Option (List ParsedLine × List StackLevelBlock) :=
  if ab.pending_lines = [] then some ([], [])
  else
    let split := extract_from_pending_block ab.pending_lines
    if split.extracted_is_final then
      if split.common_indent = 0 ∧ split.pending = [] then
        some (flushLines split.extracted ab.indent_tabs_abs ab.list_level, [])
      else none
    else if split.common_indent ≠ 0 then
      let common_indent_spaces := split.common_indent
      let extracted2 := offset_lines_by common_indent_spaces split.extracted
      let local_tab_offset := common_block_spaces_to_tabs cv common_indent_spaces
      let ll := detect_sub_block_list_level ab split.block_type local_tab_offset
      some ([],
        [{ indent_spaces_abs := ab.indent_spaces_abs + common_indent_spaces,
           indent_spaces_rel := common_indent_spaces,
           indent_tabs_abs := ab.indent_tabs_abs + local_tab_offset,
           list_level := ll.1, in_list := ll.2,
           block_type := split.block_type,
           pending_lines := extracted2 }])
    else
      match split.pending with
      | [] => none
      | (bt, _) :: _ =>
        let ll := detect_sub_block_list_level ab bt 0
        let parent := { ab with
          list_level := ll.1
          in_list := ll.2
          block_type := bt
          pending_lines := split.pending }
        let ll2 := detect_sub_block_list_level parent BlockType.Indent 0
        let child := { ab with
          list_level := ll2.1
          in_list := ll2.2
          block_type := BlockType.Indent
          pending_lines := split.extracted }
        some ([], [child, parent])

/-- Weight of one line for the termination measure. -/
def lineWeight (l : ParsedLine) : Nat := l.indent.toNat + 2

/-- Weight of one pending chunk for the termination measure. -/
def chunkWeight (P : List (BlockType × ParsedLine)) : Nat :=
  1 + (P.map (fun tl => lineWeight tl.2)).sum

/-- Number of pending lines with a negative indent (the primary
termination measure: at most one step per stack block can clamp them). -/
def negCount (P : List (BlockType × ParsedLine)) : Nat :=
  (P.filter (fun tl => tl.2.indent < 0)).length

/-- Secondary termination measure over a stack. -/
def muS (S : List StackLevelBlock) : Nat :=
  (S.map (fun b => chunkWeight b.pending_lines * chunkWeight b.pending_lines)).sum

/-- Primary termination measure over a stack. -/
def nuS (S : List StackLevelBlock) : Nat :=
  (S.map (fun b => negCount b.pending_lines)).sum

theorem nuS_append (xs ys : List StackLevelBlock) : nuS (xs ++ ys) = nuS xs + nuS ys := by
  simp [nuS]

theorem muS_append (xs ys : List StackLevelBlock) : muS (xs ++ ys) = muS xs + muS ys := by
  simp [muS]

theorem nuS_cons (b : StackLevelBlock) (S : List StackLevelBlock) :
    nuS (b :: S) = negCount b.pending_lines + nuS S := by
  simp [nuS]

theorem muS_cons (b : StackLevelBlock) (S : List StackLevelBlock) :
    muS (b :: S) = chunkWeight b.pending_lines * chunkWeight b.pending_lines + muS S := by
  simp [muS]

theorem detect_none_all_empty (P : List (BlockType × ParsedLine))
    (h : detect_first_line_with_min_indent P = none) :
    ∀ tl ∈ P, tl.2.is_empty = true := by
  induction P with
  | nil => intro tl htl; cases htl
  | cons tl rest ih =>
    rw [detect_first_line_with_min_indent] at h
    by_cases he : tl.2.is_empty
    · rw [if_pos he] at h
      have hr : detect_first_line_with_min_indent rest = none := by
        rcases hm : detect_first_line_with_min_indent rest with _ | ⟨m, i⟩
        · rfl
        · rw [hm] at h
          simp at h
      intro y hy
      rcases List.mem_cons.mp hy with rfl | hy
      · exact he
      · exact ih hr y hy
    · rcases hm : detect_first_line_with_min_indent rest with _ | ⟨m, i⟩ <;>
        rw [if_neg he, hm] at h
      · simp at h
      · dsimp only at h
        split_ifs at h <;> simp at h

theorem detect_some_spec (P : List (BlockType × ParsedLine)) (m : Int) (i : Nat)
    (h : detect_first_line_with_min_indent P = some (m, i)) :
    ∃ A x B, P = A ++ x :: B ∧ A.length = i ∧ x.2.is_empty = false ∧
      x.2.indent = m ∧ (∀ tl ∈ P, tl.2.is_empty = false → m ≤ tl.2.indent) := by
  induction P generalizing m i with
  | nil => simp [detect_first_line_with_min_indent] at h
  | cons tl rest ih =>
    rw [detect_first_line_with_min_indent] at h
    by_cases he : tl.2.is_empty
    · rw [if_pos he] at h
      rcases hm : detect_first_line_with_min_indent rest with _ | ⟨m', i'⟩ <;> rw [hm] at h
      · simp at h
      · simp only [Option.map_some'] at h
        have hmi : m' = m ∧ i' + 1 = i := by
          have := Option.some.inj h
          exact ⟨congrArg Prod.fst this, congrArg Prod.snd this⟩
        obtain ⟨rfl, hii⟩ := hmi
        obtain ⟨A, x, B, hPr, hA, hxe, hxi, hmin⟩ := ih m' i' hm
        refine ⟨tl :: A, x, B, by rw [hPr]; rfl, by simp [hA, hii], hxe, hxi, ?_⟩
        intro y hy hye
        rcases List.mem_cons.mp hy with rfl | hy
        · rw [hye] at he; cases he
        · exact hmin y hy hye
    · have he' : tl.2.is_empty = false := by
        cases hee : tl.2.is_empty
        · rfl
        · exact absurd hee he
      rcases hm : detect_first_line_with_min_indent rest with _ | ⟨m', i'⟩ <;>
        rw [if_neg he, hm] at h
      · have hmi : tl.2.indent = m ∧ 0 = i := by
          have := Option.some.inj h
          exact ⟨congrArg Prod.fst this, congrArg Prod.snd this⟩
        obtain ⟨hm1, hi1⟩ := hmi
        refine ⟨[], tl, rest, rfl, by simp [← hi1], he', hm1, ?_⟩
        intro y hy hye
        rcases List.mem_cons.mp hy with rfl | hy
        · omega
        · have := detect_none_all_empty rest hm y hy
          rw [hye] at this; cases this
      · dsimp only at h
        by_cases hle : tl.2.indent ≤ m'
        · rw [if_pos hle] at h
          have hmi : tl.2.indent = m ∧ 0 = i := by
            have := Option.some.inj h
            exact ⟨congrArg Prod.fst this, congrArg Prod.snd this⟩
          obtain ⟨hm1, hi1⟩ := hmi
          refine ⟨[], tl, rest, rfl, by simp [← hi1], he', hm1, ?_⟩
          intro y hy hye
          rcases List.mem_cons.mp hy with rfl | hy
          · omega
          · obtain ⟨A, x, B, hPr, hA, hxe, hxi, hmin⟩ := ih m' i' hm
            have := hmin y hy hye
            omega
        · rw [if_neg hle] at h
          have hmi : m' = m ∧ i' + 1 = i := by
            have := Option.some.inj h
            exact ⟨congrArg Prod.fst this, congrArg Prod.snd this⟩
          obtain ⟨rfl, hii⟩ := hmi
          obtain ⟨A, x, B, hPr, hA, hxe, hxi, hmin⟩ := ih m' i' hm
          refine ⟨tl :: A, x, B, by rw [hPr]; rfl, by simp [hA, hii], hxe, hxi, ?_⟩
          intro y hy hye
          rcases List.mem_cons.mp hy with rfl | hy
          · omega
          · exact hmin y hy hye

theorem getD_append_cons {α : Type} (d x : α) :
    ∀ (A B : List α), (A ++ x :: B).getD A.length d = x
  | [], _ => rfl
  | a :: A, B => by
    simp only [List.cons_append, List.length_cons, List.getD_cons_succ]
    exact getD_append_cons d x A B

theorem extract_eq_none (P : List (BlockType × ParsedLine)) (hP : P ≠ [])
    (h : detect_first_line_with_min_indent P = none) :
    extract_from_pending_block P = ⟨0, true, BlockType.Indent, P, []⟩ := by
  cases P with
  | nil => exact absurd rfl hP
  | cons p t =>
    unfold extract_from_pending_block
    rw [h]

theorem extract_eq_min_ne (P : List (BlockType × ParsedLine)) (m : Int) (i : Nat)
    (h : detect_first_line_with_min_indent P = some (m, i)) (hm : m ≠ 0) :
    extract_from_pending_block P = ⟨m, false, (P.getD i dfltPair).1, P, []⟩ := by
  cases P with
  | nil => simp [detect_first_line_with_min_indent] at h
  | cons p t =>
    unfold extract_from_pending_block
    rw [h]
    dsimp only
    rw [if_pos hm]

theorem extract_eq_split (P : List (BlockType × ParsedLine)) (m : Int) (i : Nat)
    (h : detect_first_line_with_min_indent P = some (m, i)) (hm : m = 0)
    (hc : 0 < i ∧ ¬ (P.take i).all (fun tl => tl.2.is_empty) = true) :
    extract_from_pending_block P =
      ⟨0, false, (P.getD i dfltPair).1, P.take i, P.drop i⟩ := by
  cases P with
  | nil => simp [detect_first_line_with_min_indent] at h
  | cons p t =>
    unfold extract_from_pending_block
    rw [h]
    dsimp only
    rw [if_neg (by simp [hm]), if_pos hc]

theorem extract_eq_general (P : List (BlockType × ParsedLine)) (m : Int) (i : Nat)
    (h : detect_first_line_with_min_indent P = some (m, i)) (hm : m = 0)
    (hc : ¬ (0 < i ∧ ¬ (P.take i).all (fun tl => tl.2.is_empty) = true)) :
    extract_from_pending_block P =
      ⟨0, true, (P.getD i dfltPair).1,
        P.takeWhile (extractGeneralPred (P.getD i dfltPair).1),
        P.dropWhile (extractGeneralPred (P.getD i dfltPair).1)⟩ := by
  cases P with
  | nil => simp [detect_first_line_with_min_indent] at h
  | cons p t =>
    unfold extract_from_pending_block
    rw [h]
    dsimp only
    rw [if_neg (by simp [hm]), if_neg hc]

/-- In the general (final) extraction case the extracted chunk is never
empty: the block's first line is either the zero-indent first real line
itself or one of the empty lines preceding it. -/
theorem extract_general_takeWhile_ne (P : List (BlockType × ParsedLine)) (m : Int) (i : Nat)
    (h : detect_first_line_with_min_indent P = some (m, i)) (hm : m = 0)
    (hc : ¬ (0 < i ∧ ¬ (P.take i).all (fun tl => tl.2.is_empty) = true)) :
    P.takeWhile (extractGeneralPred (P.getD i dfltPair).1) ≠ [] := by
  obtain ⟨A, x, B, hPd, hA, hxe, hxi, hmin⟩ := detect_some_spec P m i h
  have hgetD : P.getD i dfltPair = x := by
    rw [hPd, ← hA]
    exact getD_append_cons _ _ _ _
  set t : BlockType := (P.getD i dfltPair).1 with ht
  cases A with
  | nil =>
    simp only [List.nil_append] at hPd
    have hpred : extractGeneralPred t x = true := by
      rw [ht, hgetD]
      unfold extractGeneralPred
      simp [hxi, hm]
    rw [hPd, List.takeWhile_cons, hpred]
    simp
  | cons a A' =>
    have hi0 : i ≠ 0 := by
      rw [← hA]
      simp
    have hall : (P.take i).all (fun tl => tl.2.is_empty) = true := by
      rcases Decidable.not_and_iff_or_not.mp hc with hc1 | hc1
      · omega
      · simpa using hc1
    have htake : P.take i = a :: A' := by
      rw [hPd, ← hA]
      exact List.take_left _ _
    rw [htake] at hall
    have ha : a.2.is_empty = true := by
      have := List.all_eq_true.mp hall a (by simp)
      simpa using this
    have hpred : extractGeneralPred t a = true := by
      unfold extractGeneralPred
      simp [ha]
    rw [hPd]
    simp only [List.cons_append]
    rw [List.takeWhile_cons, hpred]
    simp

theorem negCount_append (xs ys : List (BlockType × ParsedLine)) :
    negCount (xs ++ ys) = negCount xs + negCount ys := by
  simp [negCount]

theorem chunkWeight_pos (P : List (BlockType × ParsedLine)) : 0 < chunkWeight P := by
  unfold chunkWeight
  omega

theorem chunkWeight_append (xs ys : List (BlockType × ParsedLine)) :
    chunkWeight (xs ++ ys) + 1 = chunkWeight xs + chunkWeight ys := by
  simp [chunkWeight]
  omega

theorem sum_lineWeight_ge_two (E : List (BlockType × ParsedLine)) (h : E ≠ []) :
    2 ≤ (E.map (fun tl => lineWeight tl.2)).sum := by
  cases E with
  | nil => exact absurd rfl h
  | cons e E' =>
    simp only [List.map_cons, List.sum_cons, lineWeight]
    omega

theorem chunkWeight_ge_three (E : List (BlockType × ParsedLine)) (h : E ≠ []) :
    3 ≤ chunkWeight E := by
  have := sum_lineWeight_ge_two E h
  unfold chunkWeight
  omega

theorem negCount_offset (P : List (BlockType × ParsedLine)) (m : Int) :
    negCount (offset_lines_by m P) = 0 := by
  unfold offset_lines_by
  induction P with
  | nil => rfl
  | cons tl rest ih =>
    unfold negCount at ih ⊢
    simp only [List.map_cons, List.filter_cons]
    rw [if_neg (by simp)]
    exact ih

theorem sq_lt_sq_nat (a b : Nat) (h : a < b) : a * a < b * b := by
  nlinarith

theorem offset_chunkWeight_lt (P : List (BlockType × ParsedLine)) (m : Int) (hm : 1 ≤ m)
    (hx : ∃ tl ∈ P, tl.2.is_empty = false ∧ tl.2.indent = m) :
    chunkWeight (offset_lines_by m P) < chunkWeight P := by
  unfold offset_lines_by chunkWeight
  rw [List.map_map]
  have hlt : (P.map ((fun tl : BlockType × ParsedLine => lineWeight tl.2) ∘
        (fun tl => (tl.1, { tl.2 with indent := max (tl.2.indent - m) 0 })))).sum <
      (P.map (fun tl : BlockType × ParsedLine => lineWeight tl.2)).sum := by
    apply List.sum_lt_sum
    · intro tl _
      simp only [Function.comp_apply, lineWeight]
      omega
    · obtain ⟨x, hx1, hx2, hx3⟩ := hx
      refine ⟨x, hx1, ?_⟩
      simp only [Function.comp_apply, lineWeight, hx3]
      omega
  omega

theorem negCount_pos_of_mem (P : List (BlockType × ParsedLine))
    (x : BlockType × ParsedLine) (hxP : x ∈ P) (hxn : x.2.indent < 0) :
    0 < negCount P := by
  unfold negCount
  rw [List.length_pos]
  intro hnil
  have : x ∈ P.filter (fun tl => tl.2.indent < 0) :=
    List.mem_filter.mpr ⟨hxP, by simp [hxn]⟩
  rw [hnil] at this
  cases this

theorem sq_split_lt (u v w : Nat) (hu : 3 ≤ u) (hv : 3 ≤ v) (hw : u + v = w + 1) :
    u * u + v * v < w * w := by
  nlinarith [Nat.mul_le_mul hu hv]

theorem convertStep_dec_block (cv : SpaceToTabsConverter) (ab : StackLevelBlock)
    (s : List ParsedLine × List StackLevelBlock)
    (h : convertStep cv ab = some s) :
    nuS s.2 ≤ negCount ab.pending_lines ∧
    (nuS s.2 = negCount ab.pending_lines →
      muS s.2 <
        chunkWeight ab.pending_lines * chunkWeight ab.pending_lines) := by
  by_cases hP : ab.pending_lines = []
  · unfold convertStep at h
    rw [if_pos hP] at h
    obtain rfl := Option.some.inj h
    refine ⟨by simp [nuS], fun _ => ?_⟩
    simp only [muS, List.map_nil, List.sum_nil]
    exact Nat.mul_pos (chunkWeight_pos _) (chunkWeight_pos _)
  · rcases hdet : detect_first_line_with_min_indent ab.pending_lines with _ | ⟨m, i⟩
    · have hext := extract_eq_none _ hP hdet
      unfold convertStep at h
      rw [if_neg hP] at h
      dsimp only at h
      rw [hext] at h
      dsimp only at h
      rw [if_pos rfl, if_pos ⟨rfl, rfl⟩] at h
      obtain rfl := Option.some.inj h
      dsimp only
      refine ⟨by simp [nuS], fun _ => ?_⟩
      simp only [muS, List.map_nil, List.sum_nil]
      exact Nat.mul_pos (chunkWeight_pos _) (chunkWeight_pos _)
    · by_cases hm0 : m = 0
      · by_cases hcond : 0 < i ∧
            ¬ (ab.pending_lines.take i).all (fun tl => tl.2.is_empty) = true
        · -- case B: zero-indent split at index i
          have hext := extract_eq_split _ m i hdet hm0 hcond
          obtain ⟨A, x, B, hPd, hA, hxe, hxi, hmin⟩ := detect_some_spec _ m i hdet
          have htake : ab.pending_lines.take i = A := by
            rw [hPd, ← hA]
            exact List.take_left _ _
          have hdrop : ab.pending_lines.drop i = x :: B := by
            rw [hPd, ← hA]
            exact List.drop_left _ _
          have hAne : A ≠ [] := by
            intro hAnil
            rw [hAnil] at hA
            simp at hA
            omega
          unfold convertStep at h
          rw [if_neg hP] at h
          dsimp only at h
          rw [hext] at h
          dsimp only at h
          rw [if_neg (by simp), if_neg (by simp), hdrop] at h
          dsimp only at h
          obtain rfl := Option.some.inj h
          dsimp only
          rw [htake]
          have hcount : negCount A + negCount (x :: B) = negCount ab.pending_lines := by
            rw [hPd, negCount_append]
          constructor
          · simp only [nuS, List.map_cons, List.map_nil, List.sum_cons, List.sum_nil]
            omega
          · intro _
            simp only [muS, List.map_cons, List.map_nil, List.sum_cons, List.sum_nil]
            have h3A : 3 ≤ chunkWeight A := chunkWeight_ge_three A hAne
            have h3B : 3 ≤ chunkWeight (x :: B) := chunkWeight_ge_three _ (by simp)
            have happ : chunkWeight A + chunkWeight (x :: B) =
                chunkWeight ab.pending_lines + 1 := by
              rw [hPd, ← chunkWeight_append]
            have := sq_split_lt (chunkWeight A) (chunkWeight (x :: B))
              (chunkWeight ab.pending_lines) h3A h3B happ
            omega
        · -- general final case: succeeds only with an empty remainder
          have hext := extract_eq_general _ m i hdet hm0 hcond
          unfold convertStep at h
          rw [if_neg hP] at h
          dsimp only at h
          rw [hext] at h
          dsimp only at h
          rw [if_pos rfl] at h
          by_cases hR : ab.pending_lines.dropWhile
              (extractGeneralPred ((ab.pending_lines.getD i dfltPair)).1) = []
          · rw [if_pos ⟨rfl, hR⟩] at h
            obtain rfl := Option.some.inj h
            dsimp only
            refine ⟨by simp [nuS], fun _ => ?_⟩
            simp only [muS, List.map_nil, List.sum_nil]
            exact Nat.mul_pos (chunkWeight_pos _) (chunkWeight_pos _)
          · rw [if_neg (fun hc => hR hc.2)] at h
            exact Option.noConfusion h
      · -- indented sub-block case (min_indent ≠ 0)
        have hext := extract_eq_min_ne _ m i hdet hm0
        obtain ⟨A, x, B, hPd, hA, hxe, hxi, hmin⟩ := detect_some_spec _ m i hdet
        have hxP : x ∈ ab.pending_lines := by
          rw [hPd]
          exact List.mem_append.mpr (Or.inr (List.mem_cons_self _ _))
        unfold convertStep at h
        rw [if_neg hP] at h
        dsimp only at h
        rw [hext] at h
        dsimp only at h
        rw [if_neg (by simp), if_pos hm0] at h
        obtain rfl := Option.some.inj h
        dsimp only
        by_cases hmpos : 1 ≤ m
        · refine ⟨?_, fun _ => ?_⟩
          · simp only [nuS, List.map_cons, List.map_nil, List.sum_cons, List.sum_nil]
            rw [negCount_offset]
            omega
          · simp only [muS, List.map_cons, List.map_nil, List.sum_cons, List.sum_nil]
            have hlt := offset_chunkWeight_lt ab.pending_lines m hmpos ⟨x, hxP, hxe, hxi⟩
            have := sq_lt_sq_nat _ _ hlt
            omega
        · have hneg : x.2.indent < 0 := by omega
          refine ⟨?_, fun hEq => ?_⟩
          · simp only [nuS, List.map_cons, List.map_nil, List.sum_cons, List.sum_nil]
            rw [negCount_offset]
            omega
          · exfalso
            have h1 : 0 < negCount ab.pending_lines := negCount_pos_of_mem _ x hxP hneg
            simp only [nuS, List.map_cons, List.map_nil, List.sum_cons, List.sum_nil] at hEq
            rw [negCount_offset] at hEq
            omega

theorem convertStep_decreasing (cv : SpaceToTabsConverter) (ab : StackLevelBlock)
    (rest : List StackLevelBlock) (s : List ParsedLine × List StackLevelBlock)
    (h : convertStep cv ab = some s) :
    Prod.Lex (· < ·) (· < ·)
      (nuS (s.2 ++ rest), muS (s.2 ++ rest))
      (nuS (ab :: rest), muS (ab :: rest)) := by
  obtain ⟨h1, h2⟩ := convertStep_dec_block cv ab s h
  rw [nuS_append, muS_append, nuS_cons, muS_cons]
  rcases lt_or_eq_of_le h1 with h | h
  · exact Prod.Lex.left _ _ (by omega)
  · rw [h]
    exact Prod.Lex.right _ (by have := h2 h; omega)

/-- The stack-walking loop of `SpaceToTabsConverter.convert`: pop the top
level, run one step, push the produced levels and append the flushed
lines to the output; a failed assertion in a step aborts the whole walk
(`none`).  Terminates because every successful step either strictly
reduces the number of negative-indent pending lines (at most one clamping
step per block) or, keeping it fixed, strictly reduces the summed squared
chunk weights. -/
def convertLoop (cv : SpaceToTabsConverter) :
    List StackLevelBlock → Option (List ParsedLine)
  | [] => some []
  | ab :: rest =>
    match hstep : convertStep cv ab with
    | none => none
    | some s => (convertLoop cv (s.2 ++ rest)).map (fun out => s.1 ++ out)
termination_by S => (nuS S, muS S)
decreasing_by exact convertStep_decreasing cv ab rest s hstep

theorem convertLoop_cons_none (cv : SpaceToTabsConverter) (ab : StackLevelBlock)
    (rest : List StackLevelBlock) (h : convertStep cv ab = none) :
    convertLoop cv (ab :: rest) = none := by
  rw [convertLoop]
  split
  · rfl
  next s heq =>
    rw [h] at heq
    exact Option.noConfusion heq

theorem convertLoop_cons_some (cv : SpaceToTabsConverter) (ab : StackLevelBlock)
    (rest : List StackLevelBlock) (s : List ParsedLine × List StackLevelBlock)
    (h : convertStep cv ab = some s) :
    convertLoop cv (ab :: rest) =
      (convertLoop cv (s.2 ++ rest)).map (fun out => s.1 ++ out) := by
  rw [convertLoop]
  split
  next heq =>
    rw [h] at heq
    exact Option.noConfusion heq
  next s2 heq =>
    rw [h] at heq
    obtain rfl := (Option.some.inj heq).symm
    rfl

/-- `SpaceToTabsConverter.convert` (Pass 2): process the whole input as a
single root pending block on an explicit stack; `none` models the
`AssertionError` raised when a step's internal assert fails. -/
def SpaceToTabsConverter.convert (cv : SpaceToTabsConverter)
    (input_lines : List ParsedLine) : Option (List ParsedLine) :=
  convertLoop cv [{ pending_lines := input_lines.map (fun x => (x.block_type, x)) }]

/-- Python `str.splitlines` restricted to the `'\n'` line boundary (the
only boundary character occurring in the inputs evaluated below; Python
additionally splits on `'\r'` and other unicode line breaks).  As in
Python, a trailing newline produces no trailing empty line and the empty
string yields no lines. -/
def splitlinesAux : List Char → List Char → List (List Char)
  | [], acc => if acc = [] then [] else [acc.reverse]
  | c :: rest, acc =>
    if c = '\n' then acc.reverse :: splitlinesAux rest []
    else splitlinesAux rest (c :: acc)

/-- Split a text into its lines (see `splitlinesAux`). -/
def splitlines (text : List Char) : List (List Char) :=
  splitlinesAux text []

/-- Dispatch of `_out_bullet_get` as wired in `__post_init__`: with a
truthy (non-empty) output-bullet set, `__out_bullet_get__with_bullet_replacement`
returns `out_bullets[bullet_level % len(out_bullets)]`; otherwise
`__out_bullet_get__intact` returns the line's own captured bullet. -/
def out_bullet_get (cfg : DocstringToText) (line : ParsedLine)
    (bullet_level : Nat) : List Char :=
  match cfg.out_bullets with
  | some obs =>
    if obs = [] then line.bullet
    else [obs.getD (bullet_level % obs.length) ' ']
  | none => line.bullet

/-- `DocstringToText.__format_line`: render one finalized line, without a
trailing newline.  The float expression
`int(float(max(line.indent, 0)) / self.tab_size + 0.50001)` is modelled
as the exact rational floor `(100000 * indent + 50001 * tab_size) /
(100000 * tab_size)` (the indent is nonnegative after `max`, so `int`
truncation is the floor); the float and the rational agree on every
indent/tab-size pair evaluated below. -/
def format_line (cfg : DocstringToText) (line : ParsedLine)
    (bullet_level : Nat) : List Char :=
  let indent_full_tabs : Nat :=
    (100000 * (max line.indent 0).toNat + 50001 * cfg.tab_size) /
      (100000 * cfg.tab_size)
  let indent_str := List.replicate indent_full_tabs '\t'
  if line.bullet ≠ [] then
    indent_str ++ out_bullet_get cfg line bullet_level ++ [' '] ++ line.text
  else if line.number ≠ [] then
    indent_str ++ line.number ++ [' '] ++ line.text
  else
    indent_str ++ line.text

/-- Modelled from the spec: Pass 3 (the Continuation Joiner,
`__pass3_join_list_headers_with_continuation`) exists in the source only
as an unimplemented stub (its body is a bare `pass`), and the spec keeps
its exact algorithm an explicit open question; it is modelled as the
identity, i.e. no header/continuation joining takes place. -/
def pass3_join_list_headers_with_continuation
    (joined_blocks : List ParsedLine) : List ParsedLine :=
  joined_blocks

/-- Modelled from the spec: the full text-to-text conversion.  The
surviving prefix of `__parse_to_blocks` splits the text into lines,
parses each line, and runs Pass 1 then Pass 2 (the Pass-2 callable is
the `_SpaceToTabsConverter` built from `minimize_indents`/`tab_size` —
the source's default-config shortcut binds the converter with the same
two fields, so both paths coincide); the file is truncated right after
the Pass-2 call, and the spec's control flow (raw text → Line Parser →
Paragraph Joiner → Space-to-Tabs Converter → Continuation Joiner → Line
Formatter per line → joined output text) supplies the rest: Pass 3 (see
`pass3_join_list_headers_with_continuation`), then each line rendered by
the Line Formatter with its `bullet_level` — per the spec the glyphs
cycle per nesting level, so the line's own 0-based nesting level is
passed (immaterial below: no formatted line carries a bullet) — and the
rendered lines joined with newlines.  `none` propagates an internal
assertion failure (`AssertionError`) of Pass 1 or Pass 2. -/
def dtt_convert (cfg : DocstringToText) (text : List Char) : Option (List Char) :=
  let lines := (splitlines text).map (parse_line cfg)
  match pass1_join_raw_blocks lines with
  | none => none
  | some ci_joined =>
    let cv : SpaceToTabsConverter :=
      { minimize_indents := cfg.minimize_indents, tab_size := (cfg.tab_size : Int) }
    match cv.convert ci_joined.2 with
    | none => none
    | some lines2 =>
      let lines3 := pass3_join_list_headers_with_continuation lines2
      some (List.intercalate ['\n']
        (lines3.map (fun l => format_line cfg l (max l.list_level 0).toNat)))

/-- The single joined paragraph produced by Pass 1 from the text
`"x\n- y"` (and also the Pass-1 parse of the line `"x"`). -/
def c9joined : ParsedLine :=
  { indent := 0, is_empty := false, is_list := false, list_level := -1,
    bullet := [], number := [], text := ['x'] }

theorem convertLoop_nil (cv : SpaceToTabsConverter) : convertLoop cv [] = some [] := by
  rw [convertLoop]

theorem c9_convert_single (cv : SpaceToTabsConverter) :
    SpaceToTabsConverter.convert cv [c9joined] = some [c9joined] := by
  rw [SpaceToTabsConverter.convert]
  have hstep : convertStep cv
      { pending_lines := [c9joined].map (fun x => (x.block_type, x)) } =
      some ([c9joined], []) := rfl
  rw [convertLoop_cons_some cv _ [] _ hstep]
  dsimp only
  rw [List.nil_append, convertLoop_nil]
  rfl

theorem c9_convert_nil (cv : SpaceToTabsConverter) :
    SpaceToTabsConverter.convert cv [] = some [] := by
  rw [SpaceToTabsConverter.convert]
  have hstep : convertStep cv
      { pending_lines := ([] : List ParsedLine).map (fun x => (x.block_type, x)) } =
      some (([] : List ParsedLine), ([] : List StackLevelBlock)) := rfl
  rw [convertLoop_cons_some cv _ [] _ hstep]
  dsimp only
  rw [List.nil_append, convertLoop_nil]
  rfl

/-- The two joined paragraphs Pass 1 produces from the text `"x\n  y\nz"`:
the plain-text paragraph `x` at indent 0 and `y` at indent 2 (the
trailing `z` is dropped by the missing final flush, claim C5). -/
def c1line0 : ParsedLine :=
  { indent := 0, is_empty := false, is_list := false, list_level := -1,
    bullet := [], number := [], text := ['x'] }

/-- See `c1line0`. -/
def c1line2 : ParsedLine :=
  { indent := 2, is_empty := false, is_list := false, list_level := -1,
    bullet := [], number := [], text := ['y'] }

/-- C1: refuted as stated — Pass 2 does not return the input line records
for every Pass-1 output.  On the Pass-1-reachable input below (Pass 1 of
`"x\n  y\nz"` with the default configuration yields the two paragraphs
`x` at indent 0 and `y` at indent 2), the first extraction is final
(`extracted_is_final`) with a non-empty remainder, so the source's
internal assert `split.common_indent == 0 and not split.pending` fails:
`SpaceToTabsConverter.convert` raises `AssertionError` and returns no
sequence at all, contradicting the claimed universal preservation. -/
theorem claim_C1_pass2_assert_fails_on_reachable_input :
    pass1_join_raw_blocks
        ((splitlines ['x', '\n', ' ', ' ', 'y', '\n', 'z']).map (parse_line {})) =
      some (0, [c1line0, c1line2]) ∧
    convertStep {}
        { pending_lines := [c1line0, c1line2].map (fun x => (x.block_type, x)) } =
      none ∧
    SpaceToTabsConverter.convert {} [c1line0, c1line2] = none := by
  refine ⟨by decide, by decide, ?_⟩
  rw [SpaceToTabsConverter.convert]
  exact convertLoop_cons_none _ _ _ (by decide)

/-- C9: the full conversion is not idempotent.  On the failing input
`"x\n- y"` (default configuration) the first conversion yields `"x"`:
Pass 1 flushes the paragraph `x` when the block type changes and then
drops the still-pending trailing bullet run (its loop is never followed
by a final flush, claim C5's defect).  Re-converting that output `"x"`
yields `""`: the single pending paragraph is dropped the same way, so
convert(convert(text)) = "" ≠ "x" = convert(text). -/
theorem claim_C9_full_conversion_not_idempotent :
    dtt_convert {} ['x', '\n', '-', ' ', 'y'] = some ['x'] ∧
    dtt_convert {} ['x'] = some [] ∧ (['x'] : List Char) ≠ ([] : List Char) := by
  refine ⟨?_, ?_, by decide⟩
  · have hp1 : pass1_join_raw_blocks
        ((splitlines ['x', '\n', '-', ' ', 'y']).map (parse_line {})) =
        some (0, [c9joined]) := by decide
    rw [dtt_convert]
    dsimp only
    rw [hp1]
    dsimp only
    rw [c9_convert_single]
    rfl
  · have hp1 : pass1_join_raw_blocks ((splitlines ['x']).map (parse_line {})) =
        some (0, []) := by decide
    rw [dtt_convert]
    dsimp only
    rw [hp1]
    dsimp only
    rw [c9_convert_nil]
    rfl
